import Mathlib

/-!
A verification development for the typed GPU memory-view layer of the
repository (`modules/cuda/src/buffer.ts`): the `MemoryView` family of
dtype-parameterized typed arrays over device memory, together with the
allocation hook and the element-access shim.

Modelling conventions:
* machine bytes are natural numbers (values written by the code are `< 256`);
* an element value of a dtype is its raw little-endian bit pattern, a natural
  number below `2 ^ (8 * BYTES_PER_ELEMENT)` (this transports every dtype,
  including the float dtypes, bit-exactly);
* device memory is a heap assigning a byte list to each allocation id;
* JavaScript numbers that reach the numeric view fields are modelled as
  integers (`Int` where negatives occur, `Nat` where the code forces
  non-negativity); an argument whose numeric coercion yields `NaN` is
  modelled as `Option.none`;
* the JS real division `byteLength / BYTES_PER_ELEMENT` is modelled as
  natural division (the two agree whenever the element size divides the
  byte length, which holds on every code path a claim exercises).
-/

/-- Little-endian encoding of a value into `n` bytes, as performed by writing
the value into a one-element host typed array (`E[0] = value`): the value is
truncated to the dtype's bit width. -/
def encBytes : Nat → Nat → List Nat
  | 0, _ => []
  | n + 1, v => v % 256 :: encBytes n (v / 256)

/-- Little-endian decoding of a byte list, as performed by reading element 0
of a host typed array overlaying those bytes. -/
def decBytes : List Nat → Nat
  | [] => 0
  | b :: bs => b + 256 * decBytes bs

/-- Decode `n` consecutive elements of size `es` bytes from a byte list, as a
host typed array of length `n` overlaying the bytes does. -/
def decList (es : Nat) : Nat → List Nat → List Nat
  | 0, _ => []
  | n + 1, bs => decBytes (bs.take es) :: decList es n (bs.drop es)

theorem encBytes_length (n v : Nat) : (encBytes n v).length = n := by
  induction n generalizing v with
  | zero => rfl
  | succ n ih => simp [encBytes, ih]

theorem decBytes_encBytes (n v : Nat) : decBytes (encBytes n v) = v % 256 ^ n := by
  induction n generalizing v with
  | zero => simp [encBytes, decBytes, Nat.mod_one]
  | succ n ih =>
      simp only [encBytes, decBytes, ih]
      rw [pow_succ' 256 n, Nat.mod_mul]

theorem decList_length (es n : Nat) (bs : List Nat) : (decList es n bs).length = n := by
  induction n generalizing bs with
  | zero => rfl
  | succ n ih => simp [decList, ih]

theorem decList_flatMap (es : Nat) (vals : List Nat) :
    decList es vals.length (vals.flatMap (encBytes es)) = vals.map (· % 256 ^ es) := by
  induction vals with
  | nil => rfl
  | cons v vs ih =>
      simp only [List.flatMap_cons, List.length_cons, decList, List.map_cons]
      rw [List.take_append_of_le_length (by simp [encBytes_length]),
          List.take_of_length_le (by simp [encBytes_length]),
          List.drop_append_of_le_length (by simp [encBytes_length]),
          List.drop_of_length_le (by simp [encBytes_length])]
      simp [decBytes_encBytes, ih]

theorem flatMap_encBytes_length (es : Nat) (vals : List Nat) :
    (vals.flatMap (encBytes es)).length = vals.length * es := by
  induction vals with
  | nil => simp
  | cons v vs ih => simp [List.flatMap_cons, encBytes_length, ih, Nat.succ_mul, Nat.add_comm]

/-- Overwrite the bytes of `dst` starting at position `off` with the bytes of
`src`; positions past the end of `dst` are dropped (a write past the end of an
allocation does not grow it). -/
def listOverwrite : List Nat → Nat → List Nat → List Nat
  | [], _, _ => []
  | d :: ds, 0, [] => d :: ds
  | _ :: ds, 0, s :: ss => s :: listOverwrite ds 0 ss
  | d :: ds, o + 1, src => d :: listOverwrite ds o src

theorem listOverwrite_length (d : List Nat) (o : Nat) (s : List Nat) :
    (listOverwrite d o s).length = d.length := by
  induction d generalizing o s with
  | nil => rfl
  | cons x ds ih =>
      cases o with
      | zero => cases s with
        | nil => rfl
        | cons y ss => simp [listOverwrite, ih]
      | succ o => simp [listOverwrite, ih]

theorem listOverwrite_full (d s : List Nat) (h : s.length = d.length) :
    listOverwrite d 0 s = s := by
  induction d generalizing s with
  | nil => cases s with
    | nil => rfl
    | cons y ss => simp at h
  | cons x ds ih =>
      cases s with
      | nil => simp at h
      | cons y ss =>
          simp only [List.length_cons, Nat.succ.injEq] at h
          simp [listOverwrite, ih ss h]

theorem listOverwrite_getD_inside (d : List Nat) (o : Nat) (s : List Nat) (i : Nat)
    (hb : o + s.length ≤ d.length) (hi : i < s.length) :
    (listOverwrite d o s).getD (o + i) 0 = s.getD i 0 := by
  induction d generalizing o s i with
  | nil =>
      simp only [List.length_nil, Nat.le_zero] at hb
      omega
  | cons x ds ih =>
      cases o with
      | zero =>
          cases s with
          | nil => simp at hi
          | cons y ss =>
              cases i with
              | zero => rfl
              | succ i =>
                  simp only [listOverwrite, Nat.zero_add, List.getD_cons_succ]
                  have := ih 0 ss i (by simp at hb ⊢; omega) (by simp at hi; omega)
                  simpa using this
      | succ o =>
          simp only [listOverwrite, Nat.succ_add, List.getD_cons_succ]
          exact ih o s i (by simp at hb ⊢; omega) hi

theorem listOverwrite_getD_outside (d : List Nat) (o : Nat) (s : List Nat) (i : Nat)
    (h : i < o ∨ o + s.length ≤ i) :
    (listOverwrite d o s).getD i 0 = d.getD i 0 := by
  induction d generalizing o s i with
  | nil => rfl
  | cons x ds ih =>
      cases o with
      | zero =>
          cases s with
          | nil => rfl
          | cons y ss =>
              cases i with
              | zero => simp at h
              | succ i =>
                  simp only [listOverwrite, List.getD_cons_succ]
                  exact ih 0 ss i (by simp at h ⊢; omega)
      | succ o =>
          cases i with
          | zero => rfl
          | succ i =>
              simp only [listOverwrite, List.getD_cons_succ]
              exact ih o s i (by omega)

/-- Device memory state: each allocation id holds a byte list (the physical
bytes of the root allocation, of length its capacity). -/
def DeviceHeap : Type := Nat → List Nat

def updateHeap (h : DeviceHeap) (id0 : Nat) (bs : List Nat) : DeviceHeap :=
  fun j => if j = id0 then bs else h j

/-- Modelled from the spec: the `Memory` device-memory handle class
(`modules/cuda/src/memory.ts`, not under `src/`). Per the spec's data model a
handle is an allocation of bytes on the device with a current logical size
`byteLength` and a physically reserved `capacity` (`capacity ≥ byteLength`),
and is either a fresh allocation or an alias of a byte range of another
handle (`id` names the root allocation, `offset` the start of the aliased
range within it). -/
structure Memory where
  id : Nat
  offset : Nat
  byteLength : Nat
  capacity : Nat
deriving DecidableEq, Repr

/-- Read `len` bytes from handle `m` starting `start` bytes into its range
(one direction of the `cudaMemcpy` copy primitive; bytes outside the
allocation read as zero). -/
def memReadBytes (h : DeviceHeap) (m : Memory) (start len : Nat) : List Nat :=
  (List.range len).map fun i => (h m.id).getD (m.offset + start + i) 0

/-- Write the byte list `bs` into handle `m` starting `start` bytes into its
range (the other direction of the `cudaMemcpy` copy primitive; writes past
the end of the allocation are dropped). -/
def memWriteBytes (h : DeviceHeap) (m : Memory) (start : Nat) (bs : List Nat) : DeviceHeap :=
  updateHeap h m.id (listOverwrite (h m.id) (m.offset + start) bs)

/-- Allocation state: the device heap plus the next fresh allocation id. -/
structure AllocState where
  heap : DeviceHeap
  next : Nat

/-- Modelled from the spec: the default allocator
(`allocateMemory = (byteLength) => new DeviceMemory(byteLength)` backed by
`modules/cuda/src/memory.ts`, not under `src/`). A fresh `DeviceMemory`
allocation of `byteLength` bytes has `capacity = byteLength` (the repository's
own DeviceBuffer tests pin `capacity == byteLength` for fresh allocations). -/
def allocateMemory (st : AllocState) (byteLength : Nat) : Memory × AllocState :=
  (⟨st.next, 0, byteLength, byteLength⟩,
   ⟨updateHeap st.heap st.next (List.replicate byteLength 0), st.next + 1⟩)

theorem memReadBytes_length (h : DeviceHeap) (m : Memory) (start len : Nat) :
    (memReadBytes h m start len).length = len := by
  simp [memReadBytes]

theorem memReadBytes_memWriteBytes (h : DeviceHeap) (m : Memory) (off : Nat) (bs : List Nat)
    (hb : m.offset + off + bs.length ≤ (h m.id).length) :
    memReadBytes (memWriteBytes h m off bs) m off bs.length = bs := by
  apply List.ext_getElem
  · simp [memReadBytes_length]
  · intro i hi hbs
    simp only [memReadBytes, memWriteBytes, updateHeap, List.getElem_map, List.getElem_range,
      eq_self_iff_true, if_true]
    rw [listOverwrite_getD_inside (h m.id) (m.offset + off) bs i hb
      (by simpa [memReadBytes_length] using hbs)]
    exact List.getD_eq_getElem bs 0 hbs

/-- Modelled from the spec: `clampSliceArgs` (`modules/cuda/src/util.ts`, not
under `src/`), the shared clamping rule of `fill`/`slice`/`subarray`/`set`.
Per the spec: given `length` and optional `start`/`end` (each may be omitted,
negative, or out of range), negative values are interpreted as
`length + value`; results are clamped into `[0, length]`; an omitted `start`
defaults to `0` and an omitted `end` to `length`; if after clamping
`start > end`, the window is empty (`start = end`). -/
def clampSliceArgs (len : Nat) (start : Option Int) (stop : Option Int) : Nat × Nat :=
  let s0 : Int := start.getD 0
  let e0 : Int := stop.getD len
  let s1 : Int := if s0 < 0 then len + s0 else s0
  let e1 : Int := if e0 < 0 then len + e0 else e0
  let s2 : Nat := (min s1 len).toNat
  let e2 : Nat := (min e1 len).toNat
  if e2 < s2 then (s2, s2) else (s2, e2)

/-- Modelled from the spec: `Memory.slice(begin, end)`
(`modules/cuda/src/memory.ts`, not under `src/`). Per the spec a handle
supports byte-range slicing producing a new handle that aliases the byte
range `[begin, end)` without copying; the indices resolve against the
handle's `byteLength` by the usual `ArrayBuffer.slice` rules (the shared
clamping rule). The resulting sub-range handle reserves exactly the bytes it
aliases, so its capacity is its byte length. -/
def Memory.slice (m : Memory) (b e : Int) : Memory :=
  let p := clampSliceArgs m.byteLength (some b) (some e)
  ⟨m.id, m.offset + p.1, p.2 - p.1, p.2 - p.1⟩

/-- `Array.prototype.slice` / `TypedArray.prototype.slice` on a host array:
negative indices resolve from the end, results clamp into `[0, length]`, an
omitted end defaults to the length, and a reversed window is empty — the
same resolution the shared clamping rule performs. -/
def hostSlice (l : List Nat) (a b : Option Int) : List Nat :=
  let p := clampSliceArgs l.length a b
  (l.drop p.1).take (p.2 - p.1)

/-- The closed family of eleven dtypes, one per concrete `MemoryView`
subclass (`Int8Buffer` … `Uint64Buffer` in `buffer.ts`). -/
inductive Dtype where
  | int8 | int16 | int32 | int64
  | uint8 | uint8Clamped | uint16 | uint32 | uint64
  | float32 | float64
deriving DecidableEq, Repr

/-- `BYTES_PER_ELEMENT` of the dtype's host `TypedArray` constructor. -/
def Dtype.BYTES_PER_ELEMENT : Dtype → Nat
  | .int8 => 1
  | .int16 => 2
  | .int32 => 4
  | .int64 => 8
  | .uint8 => 1
  | .uint8Clamped => 1
  | .uint16 => 2
  | .uint32 => 4
  | .uint64 => 8
  | .float32 => 4
  | .float64 => 8

theorem Dtype.BYTES_PER_ELEMENT_pos (dt : Dtype) : 0 < dt.BYTES_PER_ELEMENT := by
  cases dt <;> simp [Dtype.BYTES_PER_ELEMENT]

/-- A typed view over device memory: the `MemoryView` class of `buffer.ts`.
`dtype` identifies the concrete subclass (and so `BYTES_PER_ELEMENT` and the
host `TypedArray`); the remaining fields are the instance fields of the
class. -/
structure MemoryView where
  dtype : Dtype
  buffer : Memory
  byteOffset : Nat
  byteLength : Nat
  length : Nat
deriving DecidableEq, Repr

/-- The source shapes the `MemoryView` constructor dispatches on in
`asMemory` (`buffer.ts` lines 339-382):
* `num` — `isNumber(source)`: fresh allocation of `length` elements;
* `view` — `source instanceof MemoryView`;
* `memoryLike` — `isMemoryLike(source)`: an existing device memory handle;
* `hostBytes` — `isArrayBuffer(source)` / `isArrayBufferView(source)`: a
  host buffer whose raw bytes are copied to the device;
* `hostValues` — `isIterable(source)` / `isArrayLike(source)`: a host
  sequence of element values, converted through the view's host `TypedArray`
  (each value truncated to the dtype's bit width) and copied to the device;
* `wrapped` — an object carrying `buffer`/`byteOffset`/`byteLength`
  properties (the final `'buffer' in source` branch);
* `unknown` — any other shape (the `else` fallback). -/
inductive MemorySource where
  | num (n : Nat)
  | view (v : MemoryView)
  | memoryLike (m : Memory)
  | hostBytes (bs : List Nat)
  | hostValues (vals : List Nat)
  | wrapped (m : Memory) (byteOffset : Nat) (byteLength : Nat)
  | unknown

/-- The record `asMemory` returns and the constructor `Object.assign`s onto
the new view. -/
structure AsMemoryResult where
  buffer : Memory
  byteLength : Nat
  byteOffset : Nat
  length : Nat

/-- `asMemory` (`buffer.ts` lines 339-382): resolve a constructor source to
a device memory handle plus `byteLength`/`byteOffset`/`length`. -/
def asMemory (st : AllocState) (source : MemorySource) (dt : Dtype) :
    AsMemoryResult × AllocState :=
  let es := dt.BYTES_PER_ELEMENT
  match source with
  | .num n =>
      let (buf, st1) := allocateMemory st (n * es)
      (⟨buf, n * es, 0, n * es / es⟩, st1)
  | .view v =>
      let buf := v.buffer.slice v.byteOffset v.byteLength
      (⟨buf, v.byteLength, 0, v.byteLength / es⟩, st)
  | .memoryLike m => (⟨m, m.byteLength, 0, m.byteLength / es⟩, st)
  | .hostBytes bs =>
      let (buf, st1) := allocateMemory st bs.length
      (⟨buf, bs.length, 0, bs.length / es⟩,
       ⟨memWriteBytes st1.heap buf 0 bs, st1.next⟩)
  | .hostValues vals =>
      let bs := vals.flatMap (encBytes es)
      let (buf, st1) := allocateMemory st bs.length
      (⟨buf, bs.length, 0, bs.length / es⟩,
       ⟨memWriteBytes st1.heap buf 0 bs, st1.next⟩)
  | .wrapped m off bl => (⟨m, bl, off, bl / es⟩, st)
  | .unknown =>
      let (buf, st1) := allocateMemory st 0
      (⟨buf, 0, 0, 0 / es⟩, st1)

/-- `Math.max(+x, 0) || 0` — the coercion the constructor applies to its
`byteOffset` and `length` arguments: a value coercing to `NaN` (`none`) or to
a negative number becomes `0`. -/
def coerceNonNeg : Option Int → Nat
  | none => 0
  | some v => v.toNat

/-- The one-argument constructor `new View(source)` (`buffer.ts` lines
104-120 with `arguments.length == 1`): every field comes from `asMemory`. -/
def mkView1 (st : AllocState) (dt : Dtype) (source : MemorySource) :
    MemoryView × AllocState :=
  let (r, st1) := asMemory st source dt
  (⟨dt, r.buffer, r.byteOffset, r.byteLength, r.length⟩, st1)

/-- The three-argument constructor `new View(buffer, byteOffset, length)`
(`buffer.ts` lines 104-120 with `arguments.length == 3`): `asMemory` runs on
the first argument, then `case 3` overrides `length` and `byteLength` and
falls through to `case 2`, which overrides `byteOffset`. -/
def mkView3 (st : AllocState) (dt : Dtype) (source : MemorySource)
    (byteOffsetArg lengthArg : Option Int) : MemoryView × AllocState :=
  let (r, st1) := asMemory st source dt
  let len := coerceNonNeg lengthArg
  (⟨dt, r.buffer, coerceNonNeg byteOffsetArg, len * dt.BYTES_PER_ELEMENT, len⟩, st1)

/-- An allocation state only used where a constructor call provably neither
reads nor changes the state (the `memoryLike` branch of `asMemory` is pure). -/
def pureState : AllocState := ⟨fun _ => [], 0⟩

/-- `subarray(begin, end)` (`buffer.ts` lines 197-201): clamp, then
`new this[Symbol.species](this.buffer, this.byteOffset + begin *
BYTES_PER_ELEMENT, end - begin)` — the three-argument constructor on the
*same* handle. The `memoryLike` branch of `asMemory` ignores the allocation
state, so the result is a pure function of the view. -/
def MemoryView.subarray (v : MemoryView) (b e : Option Int) : MemoryView :=
  let p := clampSliceArgs v.length b e
  (mkView3 pureState v.dtype (.memoryLike v.buffer)
    (some ((v.byteOffset : Int) + p.1 * v.dtype.BYTES_PER_ELEMENT))
    (some ((p.2 : Int) - p.1))).1

/-- `slice(start, end)` (`buffer.ts` lines 184-189): clamp, then
`new this[Symbol.species](this.buffer.slice(byteOffset + start *
BYTES_PER_ELEMENT, byteOffset + end * BYTES_PER_ELEMENT))` — the
one-argument constructor on a byte range requested from the handle. -/
def MemoryView.slice (v : MemoryView) (a b : Option Int) : MemoryView :=
  let p := clampSliceArgs v.length a b
  (mkView1 pureState v.dtype (.memoryLike
    (v.buffer.slice ((v.byteOffset : Int) + p.1 * v.dtype.BYTES_PER_ELEMENT)
                    ((v.byteOffset : Int) + p.2 * v.dtype.BYTES_PER_ELEMENT)))).1

/-- `asMemoryView` (`buffer.ts` lines 385-402): a source that is already a
`MemoryView` is returned as is (whatever its dtype); any other source is
routed through the dtype dispatch table to the one-argument constructor of
the same dtype as `this`. -/
def asMemoryView (st : AllocState) (dt : Dtype) : MemorySource → MemoryView × AllocState
  | .view v => (v, st)
  | s => mkView1 st dt s

/-- `set(array, start)` (`buffer.ts` lines 156-162): clamp the window,
coerce the source, compute `size = min(end * BYTES_PER_ELEMENT,
source.byteLength)` and issue the single `cudaMemcpy(this.subarray(offset),
source, size)`. Returns the updated state together with the byte count of
that one copy call. -/
def MemoryView.set (v : MemoryView) (st : AllocState) (src : MemorySource)
    (start : Option Int) : AllocState × Nat :=
  let p := clampSliceArgs v.length start none
  let (source, st1) := asMemoryView st v.dtype src
  let size := min (p.2 * v.dtype.BYTES_PER_ELEMENT) source.byteLength
  let dst := v.subarray (some p.1) none
  (⟨memWriteBytes st1.heap dst.buffer dst.byteOffset
      (memReadBytes st1.heap source.buffer source.byteOffset size), st1.next⟩,
   size)

/-- `copyFrom(source, start)` (`buffer.ts` lines 122-125) is `set`. -/
def MemoryView.copyFrom (v : MemoryView) (st : AllocState) (src : MemorySource)
    (start : Option Int) : AllocState × Nat :=
  v.set st src start

/-- `fill(value, start, end)` (`buffer.ts` lines 172-176): clamp, then
`set(new TypedArray(end - start).fill(value), start)` — the temporary host
typed array arrives at `set` as an `isArrayBufferView` source whose raw
bytes are the encoded fill value repeated. -/
def MemoryView.fill (v : MemoryView) (st : AllocState) (value : Nat)
    (a b : Option Int) : AllocState × Nat :=
  let p := clampSliceArgs v.length a b
  v.set st
    (.hostBytes ((List.replicate (p.2 - p.1) value).flatMap
      (encBytes v.dtype.BYTES_PER_ELEMENT)))
    (some p.1)

/-- The `isArrayBufferView` branch of `copyInto(target, start)` (`buffer.ts`
lines 127-139): clamp the window on `this`, `size = min(size *
BYTES_PER_ELEMENT, target.byteLength)`, then the single
`cudaMemcpy(target, this.subarray(offset), size)` into the host target. -/
def MemoryView.copyIntoBytes (v : MemoryView) (h : DeviceHeap) (target : List Nat)
    (start : Option Int) : List Nat :=
  let p := clampSliceArgs v.length start none
  let size := min (p.2 * v.dtype.BYTES_PER_ELEMENT) target.length
  let sub := v.subarray (some (p.1 : Int)) none
  listOverwrite target 0 (memReadBytes h sub.buffer sub.byteOffset size)

/-- `toArray()` (`buffer.ts` lines 145-149): allocate a zero-initialized
host typed array of `this.length` elements, `copyInto` it, and read it back
as a list of element values. -/
def MemoryView.toArray (v : MemoryView) (h : DeviceHeap) : List Nat :=
  let target := List.replicate (v.length * v.dtype.BYTES_PER_ELEMENT) 0
  decList v.dtype.BYTES_PER_ELEMENT v.length (v.copyIntoBytes h target none)

/-- The numeric-index `get` trap on `MemoryView.prototype` (`buffer.ts`
lines 226-246): for `i > -1 && i < receiver.length` the trap advances
`receiver.byteOffset` by `i * BYTES_PER_ELEMENT`, copies one element into
the host staging buffer `E` with `cudaMemcpy(E, receiver,
BYTES_PER_ELEMENT)`, restores `byteOffset`, and returns `E[0]`; any other
index returns `undefined` (`none`). Returns the view as left by the trap
together with the read result. -/
def MemoryView.elemGet (v : MemoryView) (h : DeviceHeap) (i : Int) :
    MemoryView × Option Nat :=
  if 0 ≤ i ∧ i < (v.length : Int) then
    let saved := v.byteOffset
    let v1 := {v with byteOffset := saved + i.toNat * v.dtype.BYTES_PER_ELEMENT}
    let value := decBytes (memReadBytes h v1.buffer v1.byteOffset v.dtype.BYTES_PER_ELEMENT)
    ({v1 with byteOffset := saved}, some value)
  else (v, none)

/-- The numeric-index `set` trap on `MemoryView.prototype` (`buffer.ts`
lines 247-266): for `i > -1 && i < receiver.length` the trap advances
`receiver.byteOffset`, stores the value into the staging buffer (`E[0] =
value`, truncating to the dtype's width), copies it to the device with
`cudaMemcpy(receiver, E, BYTES_PER_ELEMENT)` and restores `byteOffset`; any
other numeric index changes nothing. Returns the view as left by the trap
together with the resulting heap. -/
def MemoryView.elemSet (v : MemoryView) (h : DeviceHeap) (i : Int) (value : Nat) :
    MemoryView × DeviceHeap :=
  if 0 ≤ i ∧ i < (v.length : Int) then
    let saved := v.byteOffset
    let v1 := {v with byteOffset := saved + i.toNat * v.dtype.BYTES_PER_ELEMENT}
    let h1 := memWriteBytes h v1.buffer v1.byteOffset
      (encBytes v.dtype.BYTES_PER_ELEMENT value)
    ({v1 with byteOffset := saved}, h1)
  else (v, h)

/-- The invariant claimed of every view: its byte window lies within the
capacity of the handle it references. -/
def MemoryView.Inv (v : MemoryView) : Prop :=
  v.byteOffset + v.byteLength ≤ v.buffer.capacity

/-- Field consistency every constructor establishes: `length` is
`byteLength / BYTES_PER_ELEMENT` (so `length * BYTES_PER_ELEMENT ≤
byteLength`). -/
def MemoryView.LengthConsistent (v : MemoryView) : Prop :=
  v.length = v.byteLength / v.dtype.BYTES_PER_ELEMENT

/-- A view whose window actually lies inside the live bytes of its handle,
with the handle's range inside its allocation: the well-formedness all
API-constructed views enjoy and under which reads return the bytes
previously written. -/
def MemoryView.WellFormed (v : MemoryView) (h : DeviceHeap) : Prop :=
  v.byteLength = v.length * v.dtype.BYTES_PER_ELEMENT ∧
  v.byteOffset + v.byteLength ≤ v.buffer.byteLength ∧
  v.buffer.byteLength ≤ v.buffer.capacity ∧
  v.buffer.offset + v.buffer.capacity ≤ (h v.buffer.id).length

theorem clampSliceArgs_fst_le_snd (len : Nat) (a b : Option Int) :
    (clampSliceArgs len a b).1 ≤ (clampSliceArgs len a b).2 ∧
    (clampSliceArgs len a b).2 ≤ len := by
  simp only [clampSliceArgs]
  split_ifs <;> constructor <;> omega

theorem clampSliceArgs_none_none (len : Nat) :
    clampSliceArgs len none none = (0, len) := by
  simp only [clampSliceArgs, Option.getD_none, Prod.ext_iff]
  split_ifs <;> constructor <;> omega

theorem clampSliceArgs_nat (len b e : Nat) (hb : b ≤ e) (he : e ≤ len) :
    clampSliceArgs len (some b) (some e) = (b, e) := by
  simp only [clampSliceArgs, Option.getD_some, Prod.ext_iff]
  split_ifs <;> constructor <;> omega

theorem clampSliceArgs_nat_start (len b : Nat) (hb : b ≤ len) :
    clampSliceArgs len (some b) none = (b, len) := by
  simp only [clampSliceArgs, Option.getD_some, Option.getD_none, Prod.ext_iff]
  split_ifs <;> constructor <;> omega

theorem clampSliceArgs_snd_none (len : Nat) (a : Option Int) :
    (clampSliceArgs len a none).2 = len := by
  simp only [clampSliceArgs, Option.getD_none]
  split_ifs <;> omega

theorem MemoryView.subarray_def (v : MemoryView) (a b : Option Int) :
    v.subarray a b =
      ⟨v.dtype, v.buffer,
       v.byteOffset + (clampSliceArgs v.length a b).1 * v.dtype.BYTES_PER_ELEMENT,
       ((clampSliceArgs v.length a b).2 - (clampSliceArgs v.length a b).1) *
         v.dtype.BYTES_PER_ELEMENT,
       (clampSliceArgs v.length a b).2 - (clampSliceArgs v.length a b).1⟩ := by
  obtain ⟨h1, h2⟩ := clampSliceArgs_fst_le_snd v.length a b
  have e1 : ((v.byteOffset : Int) +
        ((clampSliceArgs v.length a b).1 : Int) * (v.dtype.BYTES_PER_ELEMENT : Int)).toNat
      = v.byteOffset + (clampSliceArgs v.length a b).1 * v.dtype.BYTES_PER_ELEMENT := by
    rw [← Nat.cast_mul, ← Nat.cast_add, Int.toNat_natCast]
  have e2 : (((clampSliceArgs v.length a b).2 : Int) - ((clampSliceArgs v.length a b).1 : Int)).toNat
      = (clampSliceArgs v.length a b).2 - (clampSliceArgs v.length a b).1 := by
    omega
  simp only [MemoryView.subarray, mkView3, asMemory, coerceNonNeg, e1, e2]

theorem Memory.slice_nat (m : Memory) (b e : Nat) (hb : b ≤ e) (he : e ≤ m.byteLength) :
    m.slice b e = ⟨m.id, m.offset + b, e - b, e - b⟩ := by
  simp only [Memory.slice, clampSliceArgs_nat m.byteLength b e hb he]

theorem memReadBytes_congr (h : DeviceHeap) (m1 m2 : Memory) (s1 s2 len : Nat)
    (hid : m1.id = m2.id) (haddr : m1.offset + s1 = m2.offset + s2) :
    memReadBytes h m1 s1 len = memReadBytes h m2 s2 len := by
  unfold memReadBytes
  rw [hid]
  exact List.map_congr_left fun i _ => by rw [haddr]

theorem memReadBytes_window (h : DeviceHeap) (m : Memory) (a d k n : Nat)
    (hdk : d + k ≤ n) :
    memReadBytes h m (a + d) k = ((memReadBytes h m a n).drop d).take k := by
  apply List.ext_getElem
  · simp [memReadBytes_length]; omega
  · intro i hi1 hi2
    simp only [memReadBytes, List.getElem_take, List.getElem_drop, List.getElem_map,
      List.getElem_range]
    congr 1
    omega

theorem memReadBytes_memWriteBytes_addr (h : DeviceHeap) (mw mr : Memory)
    (ws rs : Nat) (bs : List Nat)
    (hid : mr.id = mw.id) (haddr : mr.offset + rs = mw.offset + ws)
    (hb : mw.offset + ws + bs.length ≤ (h mw.id).length) :
    memReadBytes (memWriteBytes h mw ws bs) mr rs bs.length = bs := by
  apply List.ext_getElem
  · simp [memReadBytes_length]
  · intro i hi hbs
    have hbs' : i < bs.length := by simpa [memReadBytes_length] using hi
    simp only [memReadBytes, memWriteBytes, updateHeap, List.getElem_map, List.getElem_range,
      hid, eq_self_iff_true, if_true]
    rw [show mr.offset + rs + i = mw.offset + ws + i by omega]
    rw [listOverwrite_getD_inside (h mw.id) (mw.offset + ws) bs i hb hbs']
    exact List.getD_eq_getElem bs 0 hbs'

theorem MemoryView.elemGet_fst (v : MemoryView) (h : DeviceHeap) (i : Int) :
    (v.elemGet h i).1 = v := by
  unfold MemoryView.elemGet
  split <;> rfl

theorem MemoryView.elemSet_fst (v : MemoryView) (h : DeviceHeap) (i : Int) (value : Nat) :
    (v.elemSet h i value).1 = v := by
  unfold MemoryView.elemSet
  split <;> rfl

theorem MemoryView.toArray_eq (v : MemoryView) (h : DeviceHeap) :
    v.toArray h = decList v.dtype.BYTES_PER_ELEMENT v.length
      (memReadBytes h v.buffer v.byteOffset
        (v.length * v.dtype.BYTES_PER_ELEMENT)) := by
  unfold MemoryView.toArray MemoryView.copyIntoBytes
  rw [clampSliceArgs_none_none]
  simp only [List.length_replicate, Nat.min_self, MemoryView.subarray_def,
    clampSliceArgs_nat_start v.length 0 (Nat.zero_le _), Nat.zero_mul, Nat.add_zero]
  rw [listOverwrite_full _ _ (by simp [memReadBytes_length])]

theorem decList_getD (es n : Nat) (bs : List Nat) (i : Nat) (hi : i < n) :
    (decList es n bs).getD i 0 = decBytes ((bs.drop (i * es)).take es) := by
  induction n generalizing bs i with
  | zero => omega
  | succ n ih =>
      cases i with
      | zero => simp [decList]
      | succ i =>
          simp only [decList, List.getD_cons_succ]
          rw [ih (bs.drop es) i (by omega), List.drop_drop]
          congr 2
          rw [Nat.succ_mul, Nat.add_comm]

theorem decList_window (es n s e : Nat) (bs : List Nat) (hse : s ≤ e) (hen : e ≤ n) :
    decList es (e - s) ((bs.drop (s * es)).take ((e - s) * es))
      = ((decList es n bs).drop s).take (e - s) := by
  apply List.ext_getElem
  · simp [decList_length]; omega
  · intro i hi1 hi2
    have hie : i < e - s := by simpa [decList_length] using hi1
    rw [← List.getD_eq_getElem _ 0, ← List.getD_eq_getElem _ 0]
    rw [decList_getD es (e - s) _ i hie]
    have hlen : s + i < (decList es n bs).length := by
      rw [decList_length]; omega
    rw [List.getD_eq_getElem _ 0 (by simpa using hi2), List.getElem_take,
      List.getElem_drop, ← List.getD_eq_getElem _ 0, decList_getD es n bs (s + i) (by omega)]
    have hmul : i * es + es ≤ (e - s) * es := by
      have := Nat.mul_le_mul_right es (show i + 1 ≤ e - s by omega)
      simpa [Nat.add_mul] using this
    have hmin : min es ((e - s) * es - i * es) = es := Nat.min_eq_left (by omega)
    have hidx : s * es + i * es = (s + i) * es := (Nat.add_mul s i es).symm
    rw [List.drop_take, List.take_take, List.drop_drop, hmin, hidx]

instance (v : MemoryView) : Decidable v.Inv := by
  unfold MemoryView.Inv; infer_instance

instance (v : MemoryView) : Decidable v.LengthConsistent := by
  unfold MemoryView.LengthConsistent; infer_instance

instance (v : MemoryView) (h : DeviceHeap) : Decidable (v.WellFormed h) := by
  unfold MemoryView.WellFormed; infer_instance

/-- A concrete well-formed length-3 `Uint8Buffer`-shaped view used by the
concrete instantiations below. -/
def v3u8 : MemoryView := ⟨.uint8, ⟨0, 0, 3, 3⟩, 0, 3, 3⟩

/-- A concrete length-10 view used by the concrete instantiations below. -/
def v10u8 : MemoryView := ⟨.uint8, ⟨0, 0, 10, 10⟩, 0, 10, 10⟩

/-- An empty device heap used by the concrete instantiations below. -/
def hEmpty : DeviceHeap := fun _ => []

/-- C9: in the three-argument constructor `new View(buffer, byteOffset,
length)`, a `length` argument that cannot be coerced to a non-negative
number (modelled as `none`, the result of a `NaN` coercion) is silently
coerced to `0` via `Math.max(+length, 0) || 0`, yielding `length = 0` and
`byteLength = 0`; no error is raised (the constructor is total — it returns
a view for every such argument). -/
theorem claim_C9_invalid_length_coerced (st : AllocState) (dt : Dtype)
    (source : MemorySource) (byteOffsetArg : Option Int) :
    ((mkView3 st dt source byteOffsetArg none).1).length = 0 ∧
    ((mkView3 st dt source byteOffsetArg none).1).byteLength = 0 := by
  simp [mkView3, coerceNonNeg]

/-- C10: for every in-range index, the indexed element read and write traps
leave the view exactly as it was — `byteOffset` (which the trap temporarily
advances by `i * BYTES_PER_ELEMENT` to address the element, as the stated
transfer addresses show) is restored, and `buffer`, `length` and
`byteLength` are unchanged. -/
theorem claim_C10_element_access_frame (h : DeviceHeap) (v : MemoryView) (i : Int)
    (value : Nat) (h0 : 0 ≤ i) (hlt : i < (v.length : Int)) :
    (v.elemGet h i).1 = v ∧ (v.elemSet h i value).1 = v ∧
    (v.elemGet h i).2 = some (decBytes (memReadBytes h v.buffer
      (v.byteOffset + i.toNat * v.dtype.BYTES_PER_ELEMENT) v.dtype.BYTES_PER_ELEMENT)) ∧
    (v.elemSet h i value).2 = memWriteBytes h v.buffer
      (v.byteOffset + i.toNat * v.dtype.BYTES_PER_ELEMENT)
      (encBytes v.dtype.BYTES_PER_ELEMENT value) := by
  refine ⟨MemoryView.elemGet_fst v h i, MemoryView.elemSet_fst v h i value, ?_, ?_⟩
  · unfold MemoryView.elemGet
    rw [if_pos ⟨h0, hlt⟩]
  · unfold MemoryView.elemSet
    rw [if_pos ⟨h0, hlt⟩]

theorem claim_C10_witness :
    (v3u8.elemGet hEmpty 1).1 = v3u8 ∧ (v3u8.elemSet hEmpty 1 5).1 = v3u8 ∧
    (v3u8.elemGet hEmpty 1).2 = some (decBytes (memReadBytes hEmpty v3u8.buffer
      (v3u8.byteOffset + (1 : Int).toNat * v3u8.dtype.BYTES_PER_ELEMENT)
      v3u8.dtype.BYTES_PER_ELEMENT)) ∧
    (v3u8.elemSet hEmpty 1 5).2 = memWriteBytes hEmpty v3u8.buffer
      (v3u8.byteOffset + (1 : Int).toNat * v3u8.dtype.BYTES_PER_ELEMENT)
      (encBytes v3u8.dtype.BYTES_PER_ELEMENT 5) :=
  claim_C10_element_access_frame hEmpty v3u8 1 5 (by decide) (by decide)

/-- C8: for every view of length `n` and every index `i < 0` or `i ≥ n`,
the indexed read trap returns `undefined` (`none`) and the indexed write
trap leaves the device heap — and the view — unchanged; neither path raises
(both traps are total functions that simply fall through to the
out-of-range branch). -/
theorem claim_C8_out_of_range_access (h : DeviceHeap) (v : MemoryView) (i : Int)
    (value : Nat) (hout : i < 0 ∨ (v.length : Int) ≤ i) :
    (v.elemGet h i).2 = none ∧ (v.elemSet h i value).2 = h ∧
    (v.elemGet h i).1 = v ∧ (v.elemSet h i value).1 = v := by
  have hc : ¬ (0 ≤ i ∧ i < (v.length : Int)) := by omega
  unfold MemoryView.elemGet MemoryView.elemSet
  rw [if_neg hc, if_neg hc]
  exact ⟨rfl, rfl, rfl, rfl⟩

theorem claim_C8_witness :
    (v3u8.elemGet hEmpty 100).2 = none ∧ (v3u8.elemSet hEmpty 100 7).2 = hEmpty ∧
    (v3u8.elemGet hEmpty 100).1 = v3u8 ∧ (v3u8.elemSet hEmpty 100 7).1 = v3u8 :=
  claim_C8_out_of_range_access hEmpty v3u8 100 7 (Or.inr (by decide))

/-- C6: the shared clamping rule — an omitted `start` defaults to `0` and an
omitted `end` to `length`; a negative value resolves to `length + value`;
the results are clamped into `[0, length]` and always ordered
(`start ≤ end ≤ length`); a window that would be reversed after clamping is
empty (`start = end`); and, at the view level, `slice(-3)` on a length-10
view is `slice(7, 10)`. `clampSliceArgs` itself lives in
`modules/cuda/src/util.ts`, which is not under `src/`; it is modelled here
from the spec's own statement of the rule. -/
theorem claim_C6_clamping_rule :
    (∀ len : Nat, clampSliceArgs len none none = (0, len)) ∧
    (∀ (len : Nat) (s : Int), -(len : Int) ≤ s → s < 0 →
      clampSliceArgs len (some s) none = (((len : Int) + s).toNat, len)) ∧
    (∀ (len : Nat) (a b : Option Int),
      (clampSliceArgs len a b).1 ≤ (clampSliceArgs len a b).2 ∧
      (clampSliceArgs len a b).2 ≤ len) ∧
    (clampSliceArgs 10 (some 8) (some 3) = (8, 8)) ∧
    (∀ v : MemoryView, v.length = 10 →
      v.slice (some (-3)) none = v.slice (some 7) (some 10)) := by
  refine ⟨clampSliceArgs_none_none, ?_, clampSliceArgs_fst_le_snd, by decide, ?_⟩
  · intro len s hge hlt
    simp only [clampSliceArgs, Option.getD_some, Option.getD_none, Prod.ext_iff]
    split_ifs <;> constructor <;> omega
  · intro v hl
    simp only [MemoryView.slice, hl]
    rw [show clampSliceArgs 10 (some (-3)) none = (7, 10) from by decide,
        show clampSliceArgs 10 (some 7) (some 10) = (7, 10) from by decide]

theorem claim_C6_witness :
    clampSliceArgs 10 (some (-3)) none = (((10 : Int) + (-3)).toNat, 10) ∧
    v10u8.slice (some (-3)) none = v10u8.slice (some 7) (some 10) :=
  ⟨claim_C6_clamping_rule.2.1 10 (-3) (by decide) (by decide),
   claim_C6_clamping_rule.2.2.2.2 v10u8 (by decide)⟩

/-- C2: for every single-argument construction `new View(source)` over the
four source shapes the claim lists — a host sequence (`hostValues`), a host
typed array / buffer (`hostBytes`), another `MemoryView`, or a memory-like
handle — the resulting view has `byteOffset = 0` and
`length = byteLength / BYTES_PER_ELEMENT`; in particular constructing from
another `MemoryView` `v` of the same dtype yields a view with the same
length as `v`. -/
theorem claim_C2_single_arg_construction :
    (∀ (st : AllocState) (dt : Dtype) (vals : List Nat),
      ((mkView1 st dt (.hostValues vals)).1).byteOffset = 0 ∧
      ((mkView1 st dt (.hostValues vals)).1).length
        = ((mkView1 st dt (.hostValues vals)).1).byteLength / dt.BYTES_PER_ELEMENT) ∧
    (∀ (st : AllocState) (dt : Dtype) (bs : List Nat),
      ((mkView1 st dt (.hostBytes bs)).1).byteOffset = 0 ∧
      ((mkView1 st dt (.hostBytes bs)).1).length
        = ((mkView1 st dt (.hostBytes bs)).1).byteLength / dt.BYTES_PER_ELEMENT) ∧
    (∀ (st : AllocState) (dt : Dtype) (v : MemoryView),
      ((mkView1 st dt (.view v)).1).byteOffset = 0 ∧
      ((mkView1 st dt (.view v)).1).length
        = ((mkView1 st dt (.view v)).1).byteLength / dt.BYTES_PER_ELEMENT) ∧
    (∀ (st : AllocState) (dt : Dtype) (m : Memory),
      ((mkView1 st dt (.memoryLike m)).1).byteOffset = 0 ∧
      ((mkView1 st dt (.memoryLike m)).1).length
        = ((mkView1 st dt (.memoryLike m)).1).byteLength / dt.BYTES_PER_ELEMENT) ∧
    (∀ (st : AllocState) (v : MemoryView), v.LengthConsistent →
      ((mkView1 st v.dtype (.view v)).1).length = v.length) := by
  refine ⟨?_, ?_, ?_, ?_, ?_⟩
  · intro st dt vals
    exact ⟨rfl, rfl⟩
  · intro st dt bs
    exact ⟨rfl, rfl⟩
  · intro st dt v
    exact ⟨rfl, rfl⟩
  · intro st dt m
    exact ⟨rfl, rfl⟩
  · intro st v hv
    exact (congrArg _ rfl).trans hv.symm

theorem claim_C2_witness :
    ((mkView1 pureState v3u8.dtype (.view v3u8)).1).length = v3u8.length :=
  claim_C2_single_arg_construction.2.2.2.2 pureState v3u8 (by decide)

/-- C3: round trip — for every host array `A` of values of the view's dtype
(raw bit patterns below `2 ^ (8 * BYTES_PER_ELEMENT)`), for every dtype,
`new View(A).toArray()` deep-equals `A`: the host→device copy at
construction writes the encoded bytes into the fresh allocation and
`toArray` reads exactly those bytes back. -/
theorem claim_C3_roundtrip (st : AllocState) (dt : Dtype) (A : List Nat)
    (hA : ∀ x ∈ A, x < 2 ^ (8 * dt.BYTES_PER_ELEMENT)) :
    ((mkView1 st dt (.hostValues A)).1).toArray
      ((mkView1 st dt (.hostValues A)).2).heap = A := by
  have hes := dt.BYTES_PER_ELEMENT_pos
  have hbl : (A.flatMap (encBytes dt.BYTES_PER_ELEMENT)).length
      = A.length * dt.BYTES_PER_ELEMENT := flatMap_encBytes_length _ _
  have hlen : (A.flatMap (encBytes dt.BYTES_PER_ELEMENT)).length / dt.BYTES_PER_ELEMENT
      = A.length := by
    rw [hbl]
    exact Nat.mul_div_cancel _ hes
  rw [MemoryView.toArray_eq]
  simp only [mkView1, asMemory, allocateMemory]
  rw [hlen, show A.length * dt.BYTES_PER_ELEMENT
      = (A.flatMap (encBytes dt.BYTES_PER_ELEMENT)).length from hbl.symm]
  rw [memReadBytes_memWriteBytes_addr _ _ _ 0 0 _ rfl rfl
    (by simp [updateHeap, hbl])]
  rw [show A.length = (A.flatMap (encBytes dt.BYTES_PER_ELEMENT)).length
        / dt.BYTES_PER_ELEMENT from hlen.symm]
  rw [hlen, decList_flatMap]
  calc A.map (· % 256 ^ dt.BYTES_PER_ELEMENT) = A.map id := by
        apply List.map_congr_left
        intro x hx
        have := hA x hx
        have h256 : (256 : Nat) ^ dt.BYTES_PER_ELEMENT = 2 ^ (8 * dt.BYTES_PER_ELEMENT) := by
          rw [pow_mul]
          norm_num
        simp only [id]
        rw [h256]
        exact Nat.mod_eq_of_lt this
    _ = A := List.map_id A

theorem claim_C3_witness :
    ((mkView1 pureState .uint8 (.hostValues [1, 2, 3])).1).toArray
      ((mkView1 pureState .uint8 (.hostValues [1, 2, 3])).2).heap = [1, 2, 3] :=
  claim_C3_roundtrip pureState .uint8 [1, 2, 3] (by decide)

theorem mkView1_dtype (st : AllocState) (dt : Dtype) (s : MemorySource) :
    ((mkView1 st dt s).1).dtype = dt := by
  cases s <;> rfl

theorem MemoryView.set_snd (v : MemoryView) (st : AllocState) (src : MemorySource)
    (start : Option Int) :
    (v.set st src start).2
      = min ((clampSliceArgs v.length start none).2 * v.dtype.BYTES_PER_ELEMENT)
          ((asMemoryView st v.dtype src).1.byteLength) := by
  unfold MemoryView.set
  rcases hsv : asMemoryView st v.dtype src with ⟨source, st1⟩
  rfl

/-- C1 (amended): the invariant `byteOffset + byteLength ≤ buffer.capacity`
holds after one-argument construction from a number, from host data (raw
bytes or element values), from an unrecognized source, and — provided the
handle itself satisfies `byteLength ≤ capacity` — from a memory-like
handle; it is preserved by `subarray` (for any arguments, on any view whose
fields are consistent) and established unconditionally by `slice`; and the
indexed element accessors return the view with every field unchanged (so
`set`/`fill`/`copyFrom`/`copyInto`, which mutate only heap bytes and no view
field, cannot break it). The original claim fails at the three-argument
constructor, which never validates the requested window against the
handle's capacity (see the counterexample), and likewise at one-argument
construction from a view with a nonzero `byteOffset`, whose
`buffer.slice(byteOffset, byteLength)` request shortens the backing range
while `byteLength` keeps the source view's value. -/
theorem claim_C1_invariant_amended :
    (∀ (st : AllocState) (dt : Dtype) (n : Nat), ((mkView1 st dt (.num n)).1).Inv) ∧
    (∀ (st : AllocState) (dt : Dtype) (m : Memory), m.byteLength ≤ m.capacity →
      ((mkView1 st dt (.memoryLike m)).1).Inv) ∧
    (∀ (st : AllocState) (dt : Dtype) (bs : List Nat),
      ((mkView1 st dt (.hostBytes bs)).1).Inv) ∧
    (∀ (st : AllocState) (dt : Dtype) (vals : List Nat),
      ((mkView1 st dt (.hostValues vals)).1).Inv) ∧
    (∀ (st : AllocState) (dt : Dtype), ((mkView1 st dt .unknown).1).Inv) ∧
    (∀ (v : MemoryView) (a b : Option Int), v.Inv →
      v.length * v.dtype.BYTES_PER_ELEMENT ≤ v.byteLength → (v.subarray a b).Inv) ∧
    (∀ (v : MemoryView) (a b : Option Int), (v.slice a b).Inv) ∧
    (∀ (h : DeviceHeap) (v : MemoryView) (i : Int), (v.elemGet h i).1 = v) ∧
    (∀ (h : DeviceHeap) (v : MemoryView) (i : Int) (value : Nat),
      (v.elemSet h i value).1 = v) := by
  refine ⟨?_, ?_, ?_, ?_, ?_, ?_, ?_, fun h v i => MemoryView.elemGet_fst v h i,
    fun h v i value => MemoryView.elemSet_fst v h i value⟩
  · intro st dt n
    simp [MemoryView.Inv, mkView1, asMemory, allocateMemory]
  · intro st dt m hm
    simpa [MemoryView.Inv, mkView1, asMemory] using hm
  · intro st dt bs
    simp [MemoryView.Inv, mkView1, asMemory, allocateMemory]
  · intro st dt vals
    simp [MemoryView.Inv, mkView1, asMemory, allocateMemory]
  · intro st dt
    simp [MemoryView.Inv, mkView1, asMemory, allocateMemory]
  · intro v a b hInv hlen
    obtain ⟨hpe, hpl⟩ := clampSliceArgs_fst_le_snd v.length a b
    rw [MemoryView.subarray_def]
    unfold MemoryView.Inv at hInv ⊢
    simp only
    have h2 : (clampSliceArgs v.length a b).2 * v.dtype.BYTES_PER_ELEMENT
        ≤ v.length * v.dtype.BYTES_PER_ELEMENT :=
      Nat.mul_le_mul_right _ hpl
    have h3 : (clampSliceArgs v.length a b).1 * v.dtype.BYTES_PER_ELEMENT +
        ((clampSliceArgs v.length a b).2 - (clampSliceArgs v.length a b).1) *
          v.dtype.BYTES_PER_ELEMENT
        = (clampSliceArgs v.length a b).2 * v.dtype.BYTES_PER_ELEMENT := by
      rw [← Nat.add_mul]
      congr 1
      omega
    omega
  · intro v a b
    simp [MemoryView.Inv, MemoryView.slice, mkView1, asMemory, Memory.slice]

/-- C1 is false as stated: `new View(buffer, byteOffset, length)` performs
no capacity check — wrapping a zero-byte allocation with `length = 1`
yields a view with `byteOffset + byteLength = BYTES_PER_ELEMENT > 0 =
buffer.capacity`. -/
theorem claim_C1_counterexample :
    ¬ ((mkView3 pureState .uint8 (.memoryLike (allocateMemory pureState 0).1)
        (some 0) (some 1)).1).Inv := by
  decide

theorem claim_C1_witness :
    ((mkView1 pureState .uint8 (.memoryLike ⟨0, 0, 4, 4⟩)).1).Inv ∧
    (v3u8.subarray (some 1) (some 3)).Inv :=
  ⟨claim_C1_invariant_amended.2.1 pureState .uint8 ⟨0, 0, 4, 4⟩ (by decide),
   claim_C1_invariant_amended.2.2.2.2.2.1 v3u8 (some 1) (some 3) (by decide) (by decide)⟩

/-- C7 (amended): `set(source, start)` resolves the destination window start
by the clamping rule (the window of `this.subarray(offset)` starts at
`byteOffset + offset * BYTES_PER_ELEMENT`), coerces a non-view source to a
view of `this`'s dtype, and issues one copy-primitive call of exactly
`min(end * BYTES_PER_ELEMENT, sourceByteLength)` bytes — where `end` is the
*end* of the clamped window, which is always `this.length` since `set`
omits the end argument — i.e. `min(this.length * BYTES_PER_ELEMENT,
sourceByteLength)` bytes, not `min(windowElements * BYTES_PER_ELEMENT,
sourceByteLength)`: for a positive `start` the copied byte count can exceed
the destination window (the code passes `size`, the clamped *end position*
scaled to bytes, not the window size, to `cudaMemcpy`). The view's own
fields are untouched (`set` never widens or otherwise modifies the
destination view object). -/
theorem claim_C7_set_amended (st : AllocState) (v : MemoryView) (src : MemorySource)
    (start : Option Int) :
    ((v.set st src start).2
      = min (v.length * v.dtype.BYTES_PER_ELEMENT)
          ((asMemoryView st v.dtype src).1.byteLength)) ∧
    (∀ (st2 : AllocState) (s2 : MemorySource), (∀ w, s2 ≠ .view w) →
      ((asMemoryView st2 v.dtype s2).1).dtype = v.dtype) ∧
    ((v.subarray (some ((clampSliceArgs v.length start none).1 : Int)) none).byteOffset
      = v.byteOffset +
        (clampSliceArgs v.length start none).1 * v.dtype.BYTES_PER_ELEMENT) := by
  refine ⟨?_, ?_, ?_⟩
  · rw [MemoryView.set_snd, clampSliceArgs_snd_none]
  · intro st2 s2 hnv
    cases s2 with
    | view w => exact absurd rfl (hnv w)
    | num n => exact mkView1_dtype st2 v.dtype (.num n)
    | memoryLike m => exact mkView1_dtype st2 v.dtype (.memoryLike m)
    | hostBytes bs => exact mkView1_dtype st2 v.dtype (.hostBytes bs)
    | hostValues vals => exact mkView1_dtype st2 v.dtype (.hostValues vals)
    | wrapped m o l => exact mkView1_dtype st2 v.dtype (.wrapped m o l)
    | unknown => exact mkView1_dtype st2 v.dtype .unknown
  · obtain ⟨hpe, hpl⟩ := clampSliceArgs_fst_le_snd v.length start none
    rw [MemoryView.subarray_def]
    simp only
    congr 1
    rw [clampSliceArgs_nat_start v.length (clampSliceArgs v.length start none).1
      (le_trans hpe hpl)]

/-- C7 is false as stated: a length-2 `Uint8Buffer` destination, `start = 1`
and a source of 2 bytes give a destination window of `2 - 1 = 1` element
under the clamping rule, so the claim predicts `min(1 * 1, 2) = 1` copied
byte; the code copies `min(2 * 1, 2) = 2` bytes. -/
theorem claim_C7_counterexample :
    ¬ (((mkView1 pureState .uint8 (.num 2)).1.set
          (mkView1 pureState .uint8 (.num 2)).2
          (.view (mkView1 (mkView1 pureState .uint8 (.num 2)).2 .uint8 (.num 2)).1)
          (some 1)).2
        = min (((clampSliceArgs 2 (some 1) none).2
                - (clampSliceArgs 2 (some 1) none).1) * 1)
            (mkView1 (mkView1 pureState .uint8 (.num 2)).2 .uint8 (.num 2)).1.byteLength) := by
  decide

theorem claim_C7_witness :
    ((v3u8.set pureState (.hostValues [7, 7]) (some 1)).2
      = min (v3u8.length * v3u8.dtype.BYTES_PER_ELEMENT)
          ((asMemoryView pureState v3u8.dtype (.hostValues [7, 7])).1.byteLength)) ∧
    (((asMemoryView pureState v3u8.dtype (.hostValues [7, 7])).1).dtype = v3u8.dtype) ∧
    ((v3u8.subarray (some ((clampSliceArgs v3u8.length (some 1) none).1 : Int))
        none).byteOffset
      = v3u8.byteOffset +
        (clampSliceArgs v3u8.length (some 1) none).1 * v3u8.dtype.BYTES_PER_ELEMENT) :=
  ⟨(claim_C7_set_amended pureState v3u8 (.hostValues [7, 7]) (some 1)).1,
   (claim_C7_set_amended pureState v3u8 (.hostValues [7, 7]) (some 1)).2.1
     pureState (.hostValues [7, 7]) (fun w hw => by cases hw),
   (claim_C7_set_amended pureState v3u8 (.hostValues [7, 7]) (some 1)).2.2⟩

/-- C4: for all `0 ≤ start ≤ end ≤ v.length`, `v.subarray(start, end)`
returns a view of length `end - start` over the *same* memory handle
(zero-copy) with `byteOffset` advanced by `start * BYTES_PER_ELEMENT`, and
the subarray aliases `v`'s bytes: writing element `i` of the subarray with
the indexed write trap makes `v`'s indexed read at `start + i` observe the
written value. -/
theorem claim_C4_subarray_zero_copy (h : DeviceHeap) (v : MemoryView)
    (start stop i value : Nat) (wf : v.WellFormed h)
    (hse : start ≤ stop) (hsl : stop ≤ v.length) (hi : i < stop - start)
    (hval : value < 2 ^ (8 * v.dtype.BYTES_PER_ELEMENT)) :
    ((v.subarray (some (start : Int)) (some (stop : Int))).length = stop - start) ∧
    ((v.subarray (some (start : Int)) (some (stop : Int))).buffer = v.buffer) ∧
    ((v.subarray (some (start : Int)) (some (stop : Int))).byteOffset
      = v.byteOffset + start * v.dtype.BYTES_PER_ELEMENT) ∧
    ((v.elemGet
        ((v.subarray (some (start : Int)) (some (stop : Int))).elemSet h i value).2
        ((start : Int) + i)).2 = some value) := by
  obtain ⟨hlc, hvb, hbc, hal⟩ := wf
  have hes := v.dtype.BYTES_PER_ELEMENT_pos
  have hsub : v.subarray (some (start : Int)) (some (stop : Int))
      = ⟨v.dtype, v.buffer, v.byteOffset + start * v.dtype.BYTES_PER_ELEMENT,
         (stop - start) * v.dtype.BYTES_PER_ELEMENT, stop - start⟩ := by
    rw [MemoryView.subarray_def, clampSliceArgs_nat v.length start stop hse hsl]
  rw [hsub]
  refine ⟨rfl, rfl, rfl, ?_⟩
  rw [show ((start : Int) + (i : Int)) = ((start + i : Nat) : Int) from by push_cast; rfl]
  unfold MemoryView.elemSet MemoryView.elemGet
  rw [if_pos (show (0 : Int) ≤ (i : Int) ∧ (i : Int) < ((stop - start : Nat) : Nat) from
    ⟨Int.natCast_nonneg i, by exact_mod_cast hi⟩)]
  rw [if_pos (show (0 : Int) ≤ ((start + i : Nat) : Int) ∧
      ((start + i : Nat) : Int) < (v.length : Nat) from
    ⟨Int.natCast_nonneg _, by exact_mod_cast (by omega : start + i < v.length)⟩)]
  simp only [Int.toNat_natCast]
  have hmule : (start + i) * v.dtype.BYTES_PER_ELEMENT + v.dtype.BYTES_PER_ELEMENT
      ≤ v.length * v.dtype.BYTES_PER_ELEMENT := by
    have := Nat.mul_le_mul_right v.dtype.BYTES_PER_ELEMENT
      (show start + i + 1 ≤ v.length by omega)
    simpa [Nat.add_mul] using this
  rw [show v.byteOffset + start * v.dtype.BYTES_PER_ELEMENT +
        i * v.dtype.BYTES_PER_ELEMENT
      = v.byteOffset + (start + i) * v.dtype.BYTES_PER_ELEMENT from by
    rw [Nat.add_mul]; omega]
  have hrw := memReadBytes_memWriteBytes_addr h v.buffer v.buffer
    (v.byteOffset + (start + i) * v.dtype.BYTES_PER_ELEMENT)
    (v.byteOffset + (start + i) * v.dtype.BYTES_PER_ELEMENT)
    (encBytes v.dtype.BYTES_PER_ELEMENT value) rfl rfl
    (by rw [encBytes_length]; omega)
  rw [encBytes_length] at hrw
  rw [hrw, decBytes_encBytes]
  congr 1
  have h256 : (256 : Nat) ^ v.dtype.BYTES_PER_ELEMENT
      = 2 ^ (8 * v.dtype.BYTES_PER_ELEMENT) := by
    rw [pow_mul]; norm_num
  rw [h256]
  exact Nat.mod_eq_of_lt hval

/-- A concrete heap holding one three-byte allocation, used below. -/
def hThree : DeviceHeap := fun _ => [1, 2, 3]

theorem claim_C4_witness :
    ((v3u8.subarray (some ((1 : Nat) : Int)) (some ((3 : Nat) : Int))).length = 3 - 1) ∧
    ((v3u8.subarray (some ((1 : Nat) : Int)) (some ((3 : Nat) : Int))).buffer
      = v3u8.buffer) ∧
    ((v3u8.subarray (some ((1 : Nat) : Int)) (some ((3 : Nat) : Int))).byteOffset
      = v3u8.byteOffset + 1 * v3u8.dtype.BYTES_PER_ELEMENT) ∧
    ((v3u8.elemGet
        ((v3u8.subarray (some ((1 : Nat) : Int)) (some ((3 : Nat) : Int))).elemSet
          hThree 0 9).2
        (((1 : Nat) : Int) + (0 : Nat))).2 = some 9) :=
  claim_C4_subarray_zero_copy hThree v3u8 1 3 0 9 (by decide) (by decide) (by decide)
    (by decide) (by decide)

/-- C5: for every well-formed view `v` and any slice arguments `a`, `b`
(omitted, negative, or out of range), `v.slice(a, b).toArray()` equals
`v.toArray().slice(a, b)` element-wise: the device-side byte range the
sliced view materializes is exactly the host-side window of the
materialized elements. -/
theorem claim_C5_slice_toArray (h : DeviceHeap) (v : MemoryView) (a b : Option Int)
    (wf : v.WellFormed h) :
    (v.slice a b).toArray h = hostSlice (v.toArray h) a b := by
  obtain ⟨hlc, hvb, hbc, hal⟩ := wf
  have hes := v.dtype.BYTES_PER_ELEMENT_pos
  have hta_len : (v.toArray h).length = v.length := by
    rw [MemoryView.toArray_eq, decList_length]
  simp only [MemoryView.slice, hostSlice]
  rw [hta_len]
  have hple := clampSliceArgs_fst_le_snd v.length a b
  rcases hp : clampSliceArgs v.length a b with ⟨p1, p2⟩
  rw [hp] at hple
  obtain ⟨hpe, hpl⟩ := hple
  dsimp only
  have hcast1 : ((v.byteOffset : Int) + (p1 : Int) * (v.dtype.BYTES_PER_ELEMENT : Int))
      = ((v.byteOffset + p1 * v.dtype.BYTES_PER_ELEMENT : Nat) : Int) := by
    push_cast
    ring
  have hcast2 : ((v.byteOffset : Int) + (p2 : Int) * (v.dtype.BYTES_PER_ELEMENT : Int))
      = ((v.byteOffset + p2 * v.dtype.BYTES_PER_ELEMENT : Nat) : Int) := by
    push_cast
    ring
  rw [hcast1, hcast2]
  have hmul2 : p2 * v.dtype.BYTES_PER_ELEMENT ≤ v.length * v.dtype.BYTES_PER_ELEMENT :=
    Nat.mul_le_mul_right _ hpl
  have hmul1 : p1 * v.dtype.BYTES_PER_ELEMENT ≤ p2 * v.dtype.BYTES_PER_ELEMENT :=
    Nat.mul_le_mul_right _ hpe
  rw [Memory.slice_nat v.buffer _ _ (by omega) (by omega)]
  have hD : (v.byteOffset + p2 * v.dtype.BYTES_PER_ELEMENT)
        - (v.byteOffset + p1 * v.dtype.BYTES_PER_ELEMENT)
      = (p2 - p1) * v.dtype.BYTES_PER_ELEMENT := by
    rw [Nat.sub_mul]
    omega
  simp only [hD, mkView1, asMemory]
  rw [MemoryView.toArray_eq, MemoryView.toArray_eq]
  dsimp only
  have hdiv : (p2 - p1) * v.dtype.BYTES_PER_ELEMENT / v.dtype.BYTES_PER_ELEMENT
      = p2 - p1 := Nat.mul_div_cancel _ hes
  rw [hdiv]
  have hread1 : memReadBytes h
        ⟨v.buffer.id, v.buffer.offset + (v.byteOffset + p1 * v.dtype.BYTES_PER_ELEMENT),
         (p2 - p1) * v.dtype.BYTES_PER_ELEMENT, (p2 - p1) * v.dtype.BYTES_PER_ELEMENT⟩
        0 ((p2 - p1) * v.dtype.BYTES_PER_ELEMENT)
      = memReadBytes h v.buffer (v.byteOffset + p1 * v.dtype.BYTES_PER_ELEMENT)
          ((p2 - p1) * v.dtype.BYTES_PER_ELEMENT) := by
    apply memReadBytes_congr
    · rfl
    · simp
  rw [hread1]
  have hsum : p1 * v.dtype.BYTES_PER_ELEMENT + (p2 - p1) * v.dtype.BYTES_PER_ELEMENT
      = p2 * v.dtype.BYTES_PER_ELEMENT := by
    rw [← Nat.add_mul]
    congr 1
    omega
  rw [memReadBytes_window h v.buffer v.byteOffset (p1 * v.dtype.BYTES_PER_ELEMENT)
    ((p2 - p1) * v.dtype.BYTES_PER_ELEMENT) (v.length * v.dtype.BYTES_PER_ELEMENT)
    (by omega)]
  exact decList_window _ _ _ _ _ hpe hpl

theorem claim_C5_witness :
    (v3u8.slice (some 1) none).toArray hThree
      = hostSlice (v3u8.toArray hThree) (some 1) none :=
  claim_C5_slice_toArray hThree v3u8 (some 1) none (by decide)
